import Mathlib

/-! go-quiz: a shallow embedding of `main.go`.

The program loads question records from a CSV file, computes a presentation
order with `rand.Perm`, prompts for each question while racing the read
against one shared deadline, and prints a tally.

Everything the program takes from its environment is an explicit argument:

* the file system and the CSV lexer (`CsvFile`),
* the state of the `math/rand` global source (`Rand`),
* the outcome of every race inside `prompt` (`Race`).

Go's `int` is modelled by `Int`; every number the program computes is a
slice length or a difference of slice lengths, so no wrap-around can occur.
Go strings are modelled by `String`, slices by `List`, and a run-time panic
by the error of `Except Panic`.
-/

namespace GoQuiz

/-! ## Errors and run-time panics -/

/-- Message of `ErrTimesUp = errors.New("Times up!")` (main.go:15-17). -/
def ErrTimesUp : String := "Times up!"

/-- Go run-time panics reachable from the quiz loop: an index expression
`qs[n]`, `q[0]` or `q[1]` outside the bounds of its slice. -/
inductive Panic where
  | indexOutOfRange (index : Nat) (length : Nat)
  deriving DecidableEq, Repr

/-- Go index expression `xs[i]`: the element, or a run-time panic. -/
def index {α : Type} (xs : List α) (i : Nat) : Except Panic α :=
  match xs[i]? with
  | some x => .ok x
  | none => .error (.indexOutOfRange i xs.length)

/-! ## `strings.TrimSpace` -/

/-- Go `unicode.IsSpace`: the Latin-1 spaces `\t \n \v \f \r`, space, U+0085,
U+00A0, and the code points of category Z. -/
def isSpace (c : Char) : Bool :=
  let n := c.toNat
  (9 ≤ n && n ≤ 13) || n == 0x20 || n == 0x85 || n == 0xA0 || n == 0x1680 ||
  (0x2000 ≤ n && n ≤ 0x200A) || n == 0x2028 || n == 0x2029 || n == 0x202F ||
  n == 0x205F || n == 0x3000

/-- Go `strings.TrimSpace`: drop all leading and all trailing white space. -/
def TrimSpace (s : String) : String :=
  String.mk ((s.data.dropWhile isSpace).rdropWhile isSpace)

/-! ## `math/rand` -/

/-- State of a `math/rand` source, seen through the only operation the
program performs on it: `draw k` is the raw value behind the `k`-th call of
`Intn` made after the source reached this state. -/
structure Rand where
  draw : Nat → Nat

/-- Go `rand.Intn(n)` at the `k`-th call: some value of `[0, n)`. -/
def Intn (r : Rand) (k n : Nat) : Nat :=
  r.draw k % n

/-- One iteration of the loop of `rand.Perm`:
`j := r.Intn(i + 1); m[i] = m[j]; m[j] = i`. -/
def permStep (r : Rand) (m : List Nat) (i : Nat) : List Nat :=
  let j := Intn r i (i + 1)
  (m.set i (m.getD j 0)).set j i

/-- Go `rand.Perm(n)`:
`m := make([]int, n); for i := 0; i < n; i++ { ... }; return m`. -/
def Perm (r : Rand) (n : Nat) : List Nat :=
  (List.range n).foldl (permStep r) (List.replicate n 0)

/-- The order index of `main` (main.go:55-59): the global source is reseeded
from the clock only under `-shuffle`; `rand.Perm(len(qs))` is then the first
use of the source. `dflt` is the state the source has at process start,
`seeded t` the state after `rand.Seed(t)`, `now` is `time.Now().UnixNano()`. -/
def indexOrder (dflt : Rand) (seeded : Int → Rand) (shuffle : Bool) (now : Int)
    (n : Nat) : List Nat :=
  let r := if shuffle then seeded now else dflt
  Perm r n

/-! ## `questions` -/

/-- What `os.Open` and the lexer of `encoding/csv` make of a path: the file
cannot be opened, or it splits into rows, each of them a list of fields or
a lexical error (a stray quote, for instance). -/
inductive CsvFile where
  | unreadable (err : String)
  | rows (rs : List (Except String (List String)))

/-- Go `(*csv.Reader).ReadAll` from the state in which `fieldsPerRecord`
holds `r.FieldsPerRecord`: a positive value is the field count every further
record must have, zero makes the next record set it. The first error ends
the read and no record is returned; the text of a field-count error stands
for the `*csv.ParseError` that wraps `csv.ErrFieldCount`. -/
def readAll : Nat → List (Except String (List String)) → Except String (List (List String))
  | _, [] => .ok []
  | _, .error e :: _ => .error e
  | fieldsPerRecord, .ok rec :: rest =>
    if 0 < fieldsPerRecord then
      if rec.length ≠ fieldsPerRecord then .error "wrong number of fields"
      else (readAll fieldsPerRecord rest).map (rec :: ·)
    else (readAll rec.length rest).map (rec :: ·)

/-- Go `questions(csvPath)` (main.go:112-126): `csv.NewReader` leaves
`FieldsPerRecord` at zero. -/
def questions (f : CsvFile) : Except String (List (List String)) :=
  match f with
  | .unreadable err => .error err
  | .rows rs => readAll 0 rs

/-! ## `prompt` -/

/-- What `fmt.Scanf("%s\n", &s)` did in the reading goroutine: the contents
of `s` afterwards and the error `Scanf` returned, if any. -/
structure Scan where
  s : String
  err : Option String

/-- Outcome of the `select` in `prompt`: the context is done first, or the
reading goroutine delivers first. -/
inductive Race where
  | done
  | read (scan : Scan)

/-- Return values and output of one call of `prompt`. -/
structure Prompted where
  stdout : String
  ans : String
  err : Option String
  deriving DecidableEq, Repr

/-- Go `prompt(ctx, q)` (main.go:88-110). The goroutine discards the error
of `Scanf` and sends `strings.TrimSpace(s)`. The newline that the timeout
branch writes to `os.Stdin` reaches neither output stream and is left out. -/
def prompt (race : Race) (q : List String) : Except Panic Prompted := do
  let q0 ← index q 0
  let out := q0 ++ " = "
  match race with
  | .done => pure { stdout := out, ans := "", err := some ErrTimesUp }
  | .read scan => pure { stdout := out, ans := TrimSpace scan.s, err := none }

/-! ## The quiz loop and the report -/

/-- The map `answers` of `main`, with its two keys `CORRECT` and
`INCORRECT`. -/
structure Answers where
  CORRECT : List String
  INCORRECT : List String
  deriving DecidableEq, Repr

/-- What the loop of `main` has changed so far: the answer lists, the writes
to standard output and to standard error, and the number of calls of
`prompt`. -/
structure State where
  answers : Answers
  stdout : List String
  stderr : List String
  prompts : Nat
  deriving DecidableEq, Repr

/-- How one iteration of the loop ends: it falls through to the next index,
or it executes `break outer`. -/
inductive Flow where
  | next
  | stop
  deriving DecidableEq, Repr

/-- Body of the loop of `main` for question `q` (main.go:68-78). -/
def body (race : Race) (q : List String) (st : State) : Except Panic (Flow × State) := do
  let p ← prompt race q
  let st := { st with stdout := st.stdout ++ [p.stdout], prompts := st.prompts + 1 }
  match p.err with
  | some err => pure (.stop, { st with stderr := st.stderr ++ [err ++ "\n"] })
  | none =>
    let q1 ← index q 1
    if p.ans = q1 then
      pure (.next, { st with answers := { st.answers with CORRECT := st.answers.CORRECT ++ [p.ans] } })
    else
      pure (.next, { st with answers := { st.answers with INCORRECT := st.answers.INCORRECT ++ [p.ans] } })

/-- Loop `for _, n := range indexOrder` of `main` (main.go:64-79); `env k`
is the outcome of the race inside the `k`-th call of `prompt`. -/
def quizLoop (qs : List (List String)) (env : Nat → Race) :
    List Nat → State → Except Panic State
  | [], st => .ok st
  | n :: rest, st => do
    let q ← index qs n
    let (flow, st) ← body (env st.prompts) q st
    match flow with
    | .stop => pure st
    | .next => quizLoop qs env rest st

/-- Go verb `%d` applied to an `int`. -/
def fmtD (i : Int) : String :=
  toString i

/-- The `missed` argument of the final `Printf` (main.go:85). -/
def missed (qs : List (List String)) (a : Answers) : Int :=
  (qs.length : Int) - ((a.CORRECT.length : Int) + (a.INCORRECT.length : Int))

/-- The final `fmt.Printf` of `main` (main.go:81-85). -/
def report (qs : List (List String)) (a : Answers) : String :=
  "Total: " ++ fmtD qs.length ++ " (" ++ fmtD a.CORRECT.length ++ " correct, " ++
    fmtD a.INCORRECT.length ++ " incorrect, " ++ fmtD (missed qs a) ++ " missed)\n"

/-- State of `main` on entry to the loop: both answer lists empty, the
banner and the blank line printed. -/
def initial : State :=
  { answers := { CORRECT := [], INCORRECT := [] },
    stdout := ["Type your answer followed by the return key.\n", "\n"],
    stderr := [],
    prompts := 0 }

/-- What a run of `main` leaves behind. -/
structure Run where
  stdout : List String
  stderr : List String
  exitCode : Nat
  deriving DecidableEq, Repr

/-- Go `main` after flag parsing (main.go:43-85), for a question set that
has been loaded. -/
def quiz (dflt : Rand) (seeded : Int → Rand) (shuffle : Bool) (now : Int)
    (env : Nat → Race) (qs : List (List String)) : Except Panic Run := do
  let st ← quizLoop qs env (indexOrder dflt seeded shuffle now qs.length) initial
  pure { stdout := st.stdout ++ [report qs st.answers], stderr := st.stderr, exitCode := 0 }

/-- Go `main` (main.go:19-86): a load error is printed to standard error
and the process exits with status 1 before anything else is printed. -/
def main (file : CsvFile) (dflt : Rand) (seeded : Int → Rand) (shuffle : Bool) (now : Int)
    (env : Nat → Race) : Except Panic Run :=
  match questions file with
  | .error err => .ok { stdout := [], stderr := [err ++ "\n"], exitCode := 1 }
  | .ok qs => quiz dflt seeded shuffle now env qs

/-- The values of `Int31` behind the first five calls of `Intn` on the
source that `math/rand` starts a process with when `rand.Seed` is never
called (seed 1, releases of Go before 1.20): `Intn(n)` is `Int31() % n` at
these values. Draws after the fifth are not recorded and read as 0, so this
state stands for the default source only in `Perm r n` with `n ≤ 5`. -/
def defaultSeed : Rand :=
  ⟨fun k => [1298498081, 2019727887, 1427131847, 939984059, 911902081].getD k 0⟩

/-- Number of scored answers: `len(answers[CORRECT]) + len(answers[INCORRECT])`. -/
def scored (a : Answers) : Nat :=
  a.CORRECT.length + a.INCORRECT.length

/-- Text that `prompt` prints for question `n` of `qs`. -/
def promptText (qs : List (List String)) (n : Nat) : String :=
  (qs.getD n []).getD 0 "" ++ " = "

/-! ## `rand.Perm` returns a permutation -/

theorem set_append_getElem_perm {α : Type} (a : α) :
    ∀ (l : List α) (j : Nat) (h : j < l.length), (l.set j a ++ [l[j]]).Perm (l ++ [a])
  | x :: xs, 0, _ => by
    simp only [List.set_cons_zero, List.getElem_cons_zero, List.cons_append]
    have h1 : (a :: xs ++ [x]).Perm ([x] ++ (a :: xs)) := List.perm_append_comm
    have h2 : ([a] ++ xs).Perm (xs ++ [a]) := List.perm_append_comm
    exact h1.trans (List.Perm.cons x h2)
  | x :: xs, j + 1, h => by
    simp only [List.set_cons_succ, List.getElem_cons_succ, List.cons_append]
    exact List.Perm.cons x (set_append_getElem_perm a xs j (by simpa using h))

theorem permStep_last (r : Rand) (p tail : List Nat)
    (h : Intn r p.length (p.length + 1) = p.length) :
    permStep r (p ++ 0 :: tail) p.length = (p ++ [p.length]) ++ tail := by
  unfold permStep
  simp only [h]
  rw [List.set_append_right _ _ (Nat.le_refl _), Nat.sub_self, List.set_cons_zero,
    List.set_append_right _ _ (Nat.le_refl _), Nat.sub_self, List.set_cons_zero]
  simp

theorem permStep_earlier (r : Rand) (p tail : List Nat)
    (h : Intn r p.length (p.length + 1) < p.length) :
    permStep r (p ++ 0 :: tail) p.length
      = (p.set (Intn r p.length (p.length + 1)) p.length ++ [p[Intn r p.length (p.length + 1)]])
        ++ tail := by
  unfold permStep
  simp only []
  rw [List.getD_eq_getElem _ _ (by simp; omega), List.getElem_append_left h,
    List.set_append_right _ _ (Nat.le_refl _), Nat.sub_self, List.set_cons_zero,
    List.set_append_left _ _ h]
  simp

theorem permStep_append (r : Rand) (p tail : List Nat) :
    ∃ p', permStep r (p ++ 0 :: tail) p.length = p' ++ tail ∧ p'.Perm (p ++ [p.length]) := by
  have hj : Intn r p.length (p.length + 1) < p.length + 1 := Nat.mod_lt _ (Nat.succ_pos _)
  rcases Nat.lt_succ_iff_lt_or_eq.mp hj with hlt | heq
  · exact ⟨_, permStep_earlier r p tail hlt, set_append_getElem_perm _ _ _ hlt⟩
  · exact ⟨_, permStep_last r p tail heq, List.Perm.refl _⟩

theorem Perm_foldl_range (r : Rand) (n : Nat) :
    ∀ k, k ≤ n → ∃ p, (List.range k).foldl (permStep r) (List.replicate n 0)
        = p ++ List.replicate (n - k) 0 ∧ p.Perm (List.range k)
  | 0, _ => ⟨[], by simp, List.Perm.refl _⟩
  | k + 1, hk => by
    obtain ⟨p, hp, hperm⟩ := Perm_foldl_range r n k (Nat.le_of_succ_le hk)
    have hlen : p.length = k := by simpa using hperm.length_eq
    have hrep : List.replicate (n - k) 0 = 0 :: List.replicate (n - (k + 1)) 0 := by
      rw [show n - k = (n - (k + 1)) + 1 by omega, List.replicate_succ]
    obtain ⟨p', hstep, hperm'⟩ := permStep_append r p (List.replicate (n - (k + 1)) 0)
    refine ⟨p', ?_, ?_⟩
    · rw [List.range_succ, List.foldl_append, hp, hrep]
      simpa [hlen] using hstep
    · rw [List.range_succ]
      exact hperm'.trans (by rw [hlen]; exact List.Perm.append_right _ hperm)

theorem Perm_perm (r : Rand) (n : Nat) : (Perm r n).Perm (List.range n) := by
  obtain ⟨p, hp, hperm⟩ := Perm_foldl_range r n n (Nat.le_refl n)
  have : Perm r n = p := by unfold Perm; rw [hp]; simp
  rw [this]; exact hperm

/-- The first `k` iterations of `rand.Perm` leave the natural order exactly
when each of them drew its own index. -/
theorem Perm_foldl_natural (r : Rand) (n : Nat) :
    ∀ k, k ≤ n →
      ((List.range k).foldl (permStep r) (List.replicate n 0)
          = List.range k ++ List.replicate (n - k) 0 ↔
        ∀ i < k, Intn r i (i + 1) = i)
  | 0, _ => by simp
  | k + 1, hk => by
    obtain ⟨p, hp, hperm⟩ := Perm_foldl_range r n k (Nat.le_of_succ_le hk)
    have ih := Perm_foldl_natural r n k (Nat.le_of_succ_le hk)
    have hlen : p.length = k := by simpa using hperm.length_eq
    have hrep : List.replicate (n - k) 0 = 0 :: List.replicate (n - (k + 1)) 0 := by
      rw [show n - k = (n - (k + 1)) + 1 by omega, List.replicate_succ]
    have hfold : (List.range (k + 1)).foldl (permStep r) (List.replicate n 0)
        = permStep r (p ++ 0 :: List.replicate (n - (k + 1)) 0) p.length := by
      rw [List.range_succ, List.foldl_append, hp, hrep, hlen]
      rfl
    have hj : Intn r p.length (p.length + 1) < p.length + 1 := Nat.mod_lt _ (Nat.succ_pos _)
    rw [hfold, List.range_succ]
    rcases Nat.lt_succ_iff_lt_or_eq.mp hj with hlt | heq
    · rw [permStep_earlier r p _ hlt]
      constructor
      · intro h
        have h1 := List.append_inj_left h (by simp [hlen])
        have h2 := (List.append_inj h1 (by simp [hlen])).2
        have hmem : p[Intn r p.length (p.length + 1)] ∈ List.range k :=
          hperm.mem_iff.mp (List.getElem_mem _)
        simp only [List.cons.injEq, and_true] at h2
        rw [h2] at hmem
        simp at hmem
      · intro h
        have := h k (Nat.lt_succ_self k)
        rw [hlen] at hlt
        omega
    · rw [permStep_last r p _ heq, hlen]
      constructor
      · intro h
        have h1 := List.append_inj_left h (by simp [hlen])
        have h2 := List.append_inj_left h1 (by simp [hlen])
        have h3 : (List.range k).foldl (permStep r) (List.replicate n 0)
            = List.range k ++ List.replicate (n - k) 0 := by rw [hp, h2]
        intro i hi
        rcases Nat.lt_succ_iff_lt_or_eq.mp hi with hi | rfl
        · exact ih.mp h3 i hi
        · rw [hlen] at heq; exact heq
      · intro h
        have h3 := ih.mpr (fun i hi => h i (Nat.lt_succ_of_lt hi))
        rw [hp] at h3
        rw [List.append_cancel_right h3]

/-- Go `rand.Perm(n)` is the natural order exactly when the call `Intn(i + 1)`
returned `i` for each `i` below `n`. -/
theorem Perm_eq_range_iff (r : Rand) (n : Nat) :
    Perm r n = List.range n ↔ ∀ i < n, Intn r i (i + 1) = i := by
  have := Perm_foldl_natural r n n (Nat.le_refl n)
  simpa [Perm] using this

theorem permStep_earlier_at (r : Rand) (p tail : List Nat) (j : Nat)
    (hj : Intn r p.length (p.length + 1) = j) (hlt : j < p.length) :
    permStep r (p ++ 0 :: tail) p.length = (p.set j p.length ++ [p[j]]) ++ tail := by
  subst hj
  exact permStep_earlier r p tail hlt

/-- One iteration of `rand.Perm` can be undone: the slice after the iteration
determines the value that `Intn` returned and the slice before it. -/
theorem permStep_inj (r₁ r₂ : Rand) (p₁ p₂ tail : List Nat) (hlen : p₁.length = p₂.length)
    (h₁ : ∀ x ∈ p₁, x < p₁.length) (h₂ : ∀ x ∈ p₂, x < p₂.length)
    (h : permStep r₁ (p₁ ++ 0 :: tail) p₁.length = permStep r₂ (p₂ ++ 0 :: tail) p₂.length) :
    Intn r₁ p₁.length (p₁.length + 1) = Intn r₂ p₂.length (p₂.length + 1) ∧ p₁ = p₂ := by
  obtain ⟨j₁, e₁⟩ : ∃ j, Intn r₁ p₁.length (p₁.length + 1) = j := ⟨_, rfl⟩
  obtain ⟨j₂, e₂⟩ : ∃ j, Intn r₂ p₂.length (p₂.length + 1) = j := ⟨_, rfl⟩
  have b₁ : j₁ < p₁.length + 1 := e₁ ▸ Nat.mod_lt _ (Nat.succ_pos _)
  have b₂ : j₂ < p₂.length + 1 := e₂ ▸ Nat.mod_lt _ (Nat.succ_pos _)
  rw [e₁, e₂]
  rcases Nat.lt_succ_iff_lt_or_eq.mp b₁ with l₁ | q₁ <;>
    rcases Nat.lt_succ_iff_lt_or_eq.mp b₂ with l₂ | q₂
  · rw [permStep_earlier_at r₁ p₁ tail j₁ e₁ l₁, permStep_earlier_at r₂ p₂ tail j₂ e₂ l₂] at h
    have hs := List.append_inj (List.append_cancel_right h) (by simp [hlen])
    have hv : p₁[j₁] = p₂[j₂] := by simpa using hs.2
    have hjj : j₁ = j₂ := by
      by_contra hne
      have hget := congrArg (fun l => l[j₁]?) hs.1
      simp only [List.getElem?_set, if_pos, l₁, if_true] at hget
      rw [if_neg (fun hc => hne hc.symm)] at hget
      have hlt : j₁ < p₂.length := hlen ▸ l₁
      rw [List.getElem?_eq_getElem hlt] at hget
      injection hget with hget
      have := h₂ _ (List.getElem_mem hlt)
      omega
    subst hjj
    refine ⟨rfl, List.ext_getElem hlen (fun i hi₁ hi₂ => ?_)⟩
    by_cases hij : j₁ = i
    · subst hij; exact hv
    · have hget := congrArg (fun l => l[i]?) hs.1
      simp only [List.getElem?_set, if_neg hij] at hget
      rw [List.getElem?_eq_getElem hi₁, List.getElem?_eq_getElem hi₂] at hget
      injection hget
  · rw [permStep_earlier_at r₁ p₁ tail j₁ e₁ l₁, permStep_last r₂ p₂ tail (e₂.trans q₂)] at h
    have hs := List.append_inj (List.append_cancel_right h) (by simp [hlen])
    have hv : p₁[j₁] = p₂.length := by simpa using hs.2
    have := h₁ _ (List.getElem_mem l₁)
    omega
  · rw [permStep_last r₁ p₁ tail (e₁.trans q₁), permStep_earlier_at r₂ p₂ tail j₂ e₂ l₂] at h
    have hs := List.append_inj (List.append_cancel_right h) (by simp [hlen])
    have hv : p₁.length = p₂[j₂] := by simpa using hs.2
    have := h₂ _ (List.getElem_mem l₂)
    omega
  · rw [permStep_last r₁ p₁ tail (e₁.trans q₁), permStep_last r₂ p₂ tail (e₂.trans q₂)] at h
    have hs := List.append_inj (List.append_cancel_right h) (by simp [hlen])
    exact ⟨by omega, hs.1⟩

/-- The first `k` iterations of `rand.Perm` under two sources leave the same
slice exactly when the sources returned the same values for those `k` calls
of `Intn`. -/
theorem Perm_foldl_inj (r₁ r₂ : Rand) (n : Nat) :
    ∀ k, k ≤ n →
      ((List.range k).foldl (permStep r₁) (List.replicate n 0)
          = (List.range k).foldl (permStep r₂) (List.replicate n 0) ↔
        ∀ i < k, Intn r₁ i (i + 1) = Intn r₂ i (i + 1))
  | 0, _ => by simp
  | k + 1, hk => by
    obtain ⟨p₁, hp₁, hperm₁⟩ := Perm_foldl_range r₁ n k (Nat.le_of_succ_le hk)
    obtain ⟨p₂, hp₂, hperm₂⟩ := Perm_foldl_range r₂ n k (Nat.le_of_succ_le hk)
    have ih := Perm_foldl_inj r₁ r₂ n k (Nat.le_of_succ_le hk)
    have hlen₁ : p₁.length = k := by simpa using hperm₁.length_eq
    have hlen₂ : p₂.length = k := by simpa using hperm₂.length_eq
    have hrep : List.replicate (n - k) 0 = 0 :: List.replicate (n - (k + 1)) 0 := by
      rw [show n - k = (n - (k + 1)) + 1 by omega, List.replicate_succ]
    have hfold₁ : (List.range (k + 1)).foldl (permStep r₁) (List.replicate n 0)
        = permStep r₁ (p₁ ++ 0 :: List.replicate (n - (k + 1)) 0) p₁.length := by
      rw [List.range_succ, List.foldl_append, hp₁, hrep, hlen₁]
      rfl
    have hfold₂ : (List.range (k + 1)).foldl (permStep r₂) (List.replicate n 0)
        = permStep r₂ (p₂ ++ 0 :: List.replicate (n - (k + 1)) 0) p₂.length := by
      rw [List.range_succ, List.foldl_append, hp₂, hrep, hlen₂]
      rfl
    have hb₁ : ∀ x ∈ p₁, x < p₁.length := fun x hx => by
      rw [hlen₁]; exact List.mem_range.mp (hperm₁.mem_iff.mp hx)
    have hb₂ : ∀ x ∈ p₂, x < p₂.length := fun x hx => by
      rw [hlen₂]; exact List.mem_range.mp (hperm₂.mem_iff.mp hx)
    rw [hfold₁, hfold₂]
    constructor
    · intro h
      obtain ⟨hj, hpp⟩ := permStep_inj r₁ r₂ p₁ p₂ _ (hlen₁.trans hlen₂.symm) hb₁ hb₂ h
      have hprev := ih.mp (by rw [hp₁, hp₂, hpp])
      intro i hi
      rcases Nat.lt_succ_iff_lt_or_eq.mp hi with hi | rfl
      · exact hprev i hi
      · rw [hlen₁, hlen₂] at hj; exact hj
    · intro h
      have hprev := ih.mpr (fun i hi => h i (Nat.lt_succ_of_lt hi))
      rw [hp₁, hp₂] at hprev
      have hpp : p₁ = p₂ := List.append_cancel_right hprev
      subst hpp
      have hk' := h k (Nat.lt_succ_self k)
      simp only [permStep, hlen₁, hk']

/-- Go `rand.Perm(n)` is the same slice under two sources exactly when they
returned the same values for the calls `Intn(1)`, ..., `Intn(n)`. -/
theorem Perm_eq_iff (r₁ r₂ : Rand) (n : Nat) :
    Perm r₁ n = Perm r₂ n ↔ ∀ i < n, Intn r₁ i (i + 1) = Intn r₂ i (i + 1) :=
  Perm_foldl_inj r₁ r₂ n n (Nat.le_refl n)

theorem indexOrder_perm (dflt : Rand) (seeded : Int → Rand) (shuffle : Bool) (now : Int)
    (n : Nat) : (indexOrder dflt seeded shuffle now n).Perm (List.range n) :=
  Perm_perm _ n

theorem indexOrder_lt (dflt : Rand) (seeded : Int → Rand) (shuffle : Bool) (now : Int)
    (n x : Nat) (hx : x ∈ indexOrder dflt seeded shuffle now n) : x < n :=
  List.mem_range.mp ((indexOrder_perm dflt seeded shuffle now n).mem_iff.mp hx)

theorem indexOrder_length (dflt : Rand) (seeded : Int → Rand) (shuffle : Bool) (now : Int)
    (n : Nat) : (indexOrder dflt seeded shuffle now n).length = n := by
  simpa using (indexOrder_perm dflt seeded shuffle now n).length_eq


/-! ## One iteration of the loop -/

theorem prompt_cons (race : Race) (q0 : String) (rest : List String) :
    prompt race (q0 :: rest) = .ok
      (match race with
       | .done => { stdout := q0 ++ " = ", ans := "", err := some ErrTimesUp }
       | .read scan => { stdout := q0 ++ " = ", ans := TrimSpace scan.s, err := none }) := by
  cases race <;> simp [prompt, index, bind, Except.bind, pure, Except.pure]

theorem prompt_nil (race : Race) : prompt race [] = .error (.indexOutOfRange 0 0) := by
  cases race <;> simp [prompt, index, bind, Except.bind]

theorem body_done (q0 : String) (rest : List String) (st : State) :
    body .done (q0 :: rest) st = .ok (.stop,
      { st with stdout := st.stdout ++ [q0 ++ " = "], prompts := st.prompts + 1,
                stderr := st.stderr ++ [ErrTimesUp ++ "\n"] }) := by
  simp [body, prompt_cons, bind, Except.bind, pure, Except.pure]

theorem body_read (scan : Scan) (q0 q1 : String) (rest : List String) (st : State) :
    body (.read scan) (q0 :: q1 :: rest) st = .ok (.next,
      { st with stdout := st.stdout ++ [q0 ++ " = "], prompts := st.prompts + 1,
                answers :=
                  if TrimSpace scan.s = q1 then
                    { st.answers with CORRECT := st.answers.CORRECT ++ [TrimSpace scan.s] }
                  else
                    { st.answers with INCORRECT := st.answers.INCORRECT ++ [TrimSpace scan.s] } }) := by
  simp only [body, prompt_cons, index, bind, Except.bind, pure, Except.pure,
    List.getElem?_cons_succ, List.getElem?_cons_zero]
  split <;> rfl

/-- What any iteration that does not panic has done. -/
theorem body_ok (race : Race) (q : List String) (st st' : State) (flow : Flow)
    (h : body race q st = .ok (flow, st')) :
    st'.prompts = st.prompts + 1 ∧
    (∃ q0, q[0]? = some q0 ∧ st'.stdout = st.stdout ++ [q0 ++ " = "]) ∧
    (flow = .stop → race = .done ∧ st'.answers = st.answers ∧
      st'.stderr = st.stderr ++ [ErrTimesUp ++ "\n"]) ∧
    (flow = .next → (∃ scan, race = .read scan) ∧ scored st'.answers = scored st.answers + 1 ∧
      st'.stderr = st.stderr) := by
  cases q with
  | nil => simp [body, prompt_nil, bind, Except.bind] at h
  | cons q0 rest =>
    cases race with
    | done =>
      rw [body_done] at h
      injection h with h
      injection h with h1 h2
      subst h1; subst h2
      simp
    | read scan =>
      cases rest with
      | nil => simp [body, prompt_cons, index, bind, Except.bind] at h
      | cons q1 rest =>
        rw [body_read] at h
        injection h with h
        injection h with h1 h2
        subst h1; subst h2
        refine ⟨rfl, ⟨q0, rfl, rfl⟩, by simp, fun _ => ⟨⟨scan, rfl⟩, ?_, rfl⟩⟩
        simp only [scored]
        split <;> simp <;> omega

/-! ## The loop -/

theorem index_ok {α : Type} (xs : List α) (i : Nat) (x : α) (h : index xs i = .ok x) :
    xs[i]? = some x := by
  unfold index at h
  split at h
  · injection h with h; subst h; assumption
  · cases h

theorem index_lt {α : Type} (xs : List α) (i : Nat) (h : i < xs.length) :
    index xs i = .ok xs[i] := by
  simp [index, List.getElem?_eq_getElem h]

theorem quizLoop_cons (qs : List (List String)) (env : Nat → Race) (n : Nat) (rest : List Nat)
    (st : State) :
    quizLoop qs env (n :: rest) st =
      match index qs n with
      | .error e => .error e
      | .ok q =>
        match body (env st.prompts) q st with
        | .error e => .error e
        | .ok (.stop, st') => .ok st'
        | .ok (.next, st') => quizLoop qs env rest st' := by
  rw [quizLoop]
  simp only [bind, Except.bind, pure, Except.pure]
  cases index qs n with
  | error e => rfl
  | ok q =>
    simp only []
    cases body (env st.prompts) q st with
    | error e => rfl
    | ok r =>
      obtain ⟨flow, st'⟩ := r
      cases flow <;> rfl

/-- What a run of the loop that does not panic has done: it made `m` calls of
`prompt`, for the first `m` indices of the order, and either scored all of
them and exhausted the order, or scored all but the last, which timed out. -/
theorem quizLoop_ok (qs : List (List String)) (env : Nat → Race) :
    ∀ (order : List Nat) (st st' : State), quizLoop qs env order st = .ok st' →
      ∃ m, m ≤ order.length ∧ st'.prompts = st.prompts + m ∧
        st'.stdout = st.stdout ++ (order.take m).map (promptText qs) ∧
        ((m = order.length ∧ scored st'.answers = scored st.answers + m ∧
            st'.stderr = st.stderr) ∨
         (0 < m ∧ scored st'.answers + 1 = scored st.answers + m ∧
            st'.stderr = st.stderr ++ [ErrTimesUp ++ "\n"] ∧
            env (st.prompts + (m - 1)) = .done))
  | [], st, st', h => by
    simp only [quizLoop] at h
    injection h with h
    subst h
    exact ⟨0, by simp⟩
  | n :: rest, st, st', h => by
    rw [quizLoop_cons] at h
    cases hq : index qs n with
    | error e => rw [hq] at h; cases h
    | ok q =>
      rw [hq] at h
      simp only [] at h
      have hqn : promptText qs n = q.getD 0 "" ++ " = " := by
        simp [promptText, List.getD_eq_getElem?_getD, index_ok _ _ _ hq]
      cases hb : body (env st.prompts) q st with
      | error e => rw [hb] at h; cases h
      | ok r =>
        obtain ⟨flow, st1⟩ := r
        rw [hb] at h
        obtain ⟨hp, ⟨q0, hq0, hout⟩, hstop, hnext⟩ := body_ok _ _ _ _ _ hb
        have hout1 : st1.stdout = st.stdout ++ [promptText qs n] := by
          rw [hout, hqn]; simp [List.getD_eq_getElem?_getD, hq0]
        cases flow with
        | stop =>
          simp only [] at h
          injection h with h
          subst h
          obtain ⟨hrace, hans, herr⟩ := hstop rfl
          refine ⟨1, by simp, hp, by simpa using hout1, Or.inr ⟨by omega, ?_, herr, ?_⟩⟩
          · rw [hans]
          · simpa using hrace
        | next =>
          simp only [] at h
          obtain ⟨_, hsc, herr⟩ := hnext rfl
          obtain ⟨m, hm, hpm, houtm, hcase⟩ := quizLoop_ok qs env rest st1 st' h
          refine ⟨m + 1, by simp; omega, by omega, ?_, ?_⟩
          · rw [houtm, hout1]; simp
          · rcases hcase with ⟨h1, h2, h3⟩ | ⟨h0, h2, h3, h4⟩
            · exact Or.inl ⟨by simp; omega, by omega, by rw [h3, herr]⟩
            · refine Or.inr ⟨by omega, by omega, by rw [h3, herr], ?_⟩
              rw [hp] at h4
              rw [← h4]
              congr 1
              omega

/-- The loop does not panic when every index of the order is one of `qs` and
every record has a prompt and an expected answer. -/
theorem quizLoop_total (qs : List (List String)) (env : Nat → Race)
    (hq : ∀ q ∈ qs, 2 ≤ q.length) :
    ∀ (order : List Nat) (st : State), (∀ n ∈ order, n < qs.length) →
      ∃ st', quizLoop qs env order st = .ok st'
  | [], st, _ => ⟨st, rfl⟩
  | n :: rest, st, hn => by
    have hlt : n < qs.length := hn n (List.mem_cons_self _ _)
    have h2 : 2 ≤ (qs[n]).length := hq _ (List.getElem_mem _)
    rw [quizLoop_cons, index_lt qs n hlt]
    simp only []
    obtain ⟨q0, q1, tl, hqn⟩ : ∃ q0 q1 tl, qs[n] = q0 :: q1 :: tl := by
      match hm : qs[n], h2 with
      | q0 :: q1 :: tl, _ => exact ⟨q0, q1, tl, rfl⟩
    rw [hqn]
    cases env st.prompts with
    | done => rw [body_done]; exact ⟨_, rfl⟩
    | read scan =>
      rw [body_read]
      exact quizLoop_total qs env hq rest _ (fun x hx => hn x (List.mem_cons_of_mem _ hx))

/-- A run over `l₁` in which every race was won by the read, continued. -/
theorem quizLoop_append (qs : List (List String)) (env : Nat → Race) :
    ∀ (l₁ : List Nat) (st st₁ : State), quizLoop qs env l₁ st = .ok st₁ →
      (∀ i < l₁.length, ∃ scan, env (st.prompts + i) = .read scan) →
      st₁.prompts = st.prompts + l₁.length ∧
      ∀ l₂, quizLoop qs env (l₁ ++ l₂) st = quizLoop qs env l₂ st₁
  | [], st, st₁, h, _ => by
    simp only [quizLoop] at h
    injection h with h
    subst h
    exact ⟨rfl, fun _ => rfl⟩
  | n :: rest, st, st₁, h, hread => by
    rw [quizLoop_cons] at h
    cases hq : index qs n with
    | error e => rw [hq] at h; cases h
    | ok q =>
      rw [hq] at h
      simp only [] at h
      cases hb : body (env st.prompts) q st with
      | error e => rw [hb] at h; cases h
      | ok r =>
        obtain ⟨flow, st'⟩ := r
        rw [hb] at h
        obtain ⟨hp, _, hstop, _⟩ := body_ok _ _ _ _ _ hb
        cases flow with
        | stop =>
          obtain ⟨scan, hscan⟩ := hread 0 (by simp)
          have := (hstop rfl).1
          simp only [Nat.add_zero] at hscan
          rw [hscan] at this
          cases this
        | next =>
          simp only [] at h
          obtain ⟨hlen, happ⟩ := quizLoop_append qs env rest st' st₁ h (fun i hi => by
            have := hread (i + 1) (by simpa using hi)
            rw [hp]
            rwa [show st.prompts + 1 + i = st.prompts + (i + 1) by omega])
          refine ⟨by simp; omega, fun l₂ => ?_⟩
          rw [List.cons_append, quizLoop_cons, hq]
          simp only []
          rw [hb]
          exact happ l₂

/-! ## The tally -/

/-- The loop of `main` scores at most one answer for each question, and
returns when every record has a prompt and an expected answer. -/
theorem tally_bound (dflt : Rand) (seeded : Int → Rand) (shuffle : Bool) (now : Int)
    (env : Nat → Race) (qs : List (List String)) :
    (∀ st, quizLoop qs env (indexOrder dflt seeded shuffle now qs.length) initial = .ok st →
      scored st.answers ≤ qs.length) ∧
    ((∀ q ∈ qs, 2 ≤ q.length) →
      ∃ st, quizLoop qs env (indexOrder dflt seeded shuffle now qs.length) initial = .ok st) := by
  refine ⟨fun st h => ?_, fun hq => ?_⟩
  · obtain ⟨m, hm, _, _, hcase⟩ := quizLoop_ok qs env _ _ _ h
    rw [indexOrder_length] at hm
    have h0 : scored initial.answers = 0 := rfl
    rcases hcase with ⟨_, h2, _⟩ | ⟨_, h2, _⟩ <;> omega
  · exact quizLoop_total qs env hq _ _ (fun n hn => indexOrder_lt _ _ _ _ _ _ hn)

/-- C1. Whenever the loop of `main` stops (order exhausted or `break outer`),
the counts that the report prints satisfy
`correct + incorrect + missed = total`, with `total = len(qs)` and
`missed = len(qs) - (correct + incorrect)`, and `missed` is not negative;
and the loop does stop when every record has a prompt and an expected
answer. -/
theorem tally_invariant (dflt : Rand) (seeded : Int → Rand) (shuffle : Bool) (now : Int)
    (env : Nat → Race) (qs : List (List String)) :
    (∀ st, quizLoop qs env (indexOrder dflt seeded shuffle now qs.length) initial = .ok st →
      (st.answers.CORRECT.length : Int) + (st.answers.INCORRECT.length : Int)
          + missed qs st.answers = (qs.length : Int) ∧
      missed qs st.answers = (qs.length : Int)
          - ((st.answers.CORRECT.length : Int) + (st.answers.INCORRECT.length : Int)) ∧
      0 ≤ missed qs st.answers) ∧
    ((∀ q ∈ qs, 2 ≤ q.length) →
      ∃ st, quizLoop qs env (indexOrder dflt seeded shuffle now qs.length) initial = .ok st) := by
  obtain ⟨hbound, htotal⟩ := tally_bound dflt seeded shuffle now env qs
  refine ⟨fun st h => ?_, htotal⟩
  have hs := hbound st h
  simp only [scored] at hs
  exact ⟨by simp only [missed]; omega, rfl, by simp only [missed]; omega⟩

/-- C1, at a run of two questions answered `4` and `7` in file order. -/
theorem tally_invariant_witness :
    ∃ st, quizLoop [["2+2", "4"], ["3+3", "6"]]
        (fun k => if k = 0 then .read ⟨"4", none⟩ else .read ⟨"7", none⟩)
        (indexOrder ⟨fun k => k⟩ (fun _ => ⟨fun k => k⟩) false 0 2) initial = .ok st ∧
      (st.answers.CORRECT.length : Int) + (st.answers.INCORRECT.length : Int)
          + missed [["2+2", "4"], ["3+3", "6"]] st.answers = 2 ∧
      0 ≤ missed [["2+2", "4"], ["3+3", "6"]] st.answers := by
  have h := tally_invariant ⟨fun k => k⟩ (fun _ => ⟨fun k => k⟩) false 0
    (fun k => if k = 0 then .read ⟨"4", none⟩ else .read ⟨"7", none⟩)
    [["2+2", "4"], ["3+3", "6"]]
  obtain ⟨st, hst⟩ := h.2 (by decide)
  exact ⟨st, hst, (h.1 st hst).1, (h.1 st hst).2.2⟩

/-- C2. For a question with expected answer `q1` and a call of `prompt` that
returned `p`: without error, the iteration goes on to the next index and
appends `p.ans` to the correct list alone when `p.ans = q1` and to the
incorrect list alone otherwise (the expected answer is compared as it is);
with the timeout error the iteration breaks the loop and leaves both lists as
they were, so the question is missed and not incorrect. -/
theorem answer_classified (race : Race) (q0 q1 : String) (rest : List String) (st : State)
    (p : Prompted) (hp : prompt race (q0 :: q1 :: rest) = .ok p) :
    ∃ flow st', body race (q0 :: q1 :: rest) st = .ok (flow, st') ∧
      (p.err = none → p.ans = q1 → flow = .next ∧
        st'.answers.CORRECT = st.answers.CORRECT ++ [p.ans] ∧
        st'.answers.INCORRECT = st.answers.INCORRECT) ∧
      (p.err = none → p.ans ≠ q1 → flow = .next ∧
        st'.answers.INCORRECT = st.answers.INCORRECT ++ [p.ans] ∧
        st'.answers.CORRECT = st.answers.CORRECT) ∧
      (p.err = some ErrTimesUp → flow = .stop ∧ st'.answers = st.answers ∧
        ∀ qs, missed qs st'.answers = missed qs st.answers) := by
  rw [prompt_cons] at hp
  injection hp with hp
  subst hp
  cases race with
  | done =>
    refine ⟨_, _, body_done q0 (q1 :: rest) st, ?_, ?_, ?_⟩
    · intro h; cases h
    · intro h; cases h
    · intro _; exact ⟨rfl, rfl, fun _ => rfl⟩
  | read scan =>
    refine ⟨_, _, body_read scan q0 q1 rest st, ?_, ?_, ?_⟩
    · intro _ h
      simp only [] at h
      simp [h]
    · intro _ h
      simp only [] at h
      simp [h]
    · intro h; cases h

/-- C2, at the question `2+2` with expected answer `4` and the answer `4`. -/
theorem answer_classified_witness :
    prompt (.read ⟨"4", none⟩) ["2+2", "4"] = .ok ⟨"2+2 = ", "4", none⟩ ∧
    ∃ flow st', body (.read ⟨"4", none⟩) ["2+2", "4"] initial = .ok (flow, st') ∧
      ((none : Option String) = none → "4" = "4" → flow = .next ∧
        st'.answers.CORRECT = [] ++ ["4"] ∧ st'.answers.INCORRECT = []) ∧
      ((none : Option String) = none → "4" ≠ "4" → flow = .next ∧
        st'.answers.INCORRECT = [] ++ ["4"] ∧ st'.answers.CORRECT = []) ∧
      ((none : Option String) = some ErrTimesUp → flow = .stop ∧
        st'.answers = initial.answers ∧
        ∀ qs, missed qs st'.answers = missed qs initial.answers) :=
  ⟨by rfl, answer_classified (.read ⟨"4", none⟩) "2+2" "4" [] initial ⟨"2+2 = ", "4", none⟩
    (by rfl)⟩

/-- C3. When the first `k` races are won by the read and race `k` is lost to
the deadline (`k` below the number of questions), the loop over the order
index stops at position `k`: exactly the first `k + 1` questions of the order
were prompted, the answer lists are those the loop leaves after the first `k`
positions, `Times up!` is the one line on standard error, and the missed
count is `n - k`. The first `k` positions are scored without panic whenever
every record has an expected answer. -/
theorem timeout_stops_loop (dflt : Rand) (seeded : Int → Rand) (shuffle : Bool) (now : Int)
    (env : Nat → Race) (qs : List (List String)) (k : Nat)
    (hne : ∀ q ∈ qs, q ≠ [])
    (hk : k < qs.length)
    (hread : ∀ i < k, ∃ scan, env i = .read scan)
    (hdone : env k = .done) :
    (∀ stk, quizLoop qs env ((indexOrder dflt seeded shuffle now qs.length).take k) initial
        = .ok stk →
      ∃ st, quizLoop qs env (indexOrder dflt seeded shuffle now qs.length) initial = .ok st ∧
        st.answers = stk.answers ∧
        st.prompts = k + 1 ∧
        st.stdout = initial.stdout ++
          ((indexOrder dflt seeded shuffle now qs.length).take (k + 1)).map (promptText qs) ∧
        st.stderr = ["Times up!\n"] ∧
        st.answers.CORRECT.length + st.answers.INCORRECT.length = k ∧
        missed qs st.answers = (qs.length : Int) - (k : Int)) ∧
    ((∀ q ∈ qs, 2 ≤ q.length) →
      ∃ stk, quizLoop qs env ((indexOrder dflt seeded shuffle now qs.length).take k) initial
        = .ok stk) := by
  have hlen := indexOrder_length dflt seeded shuffle now qs.length
  have hlt := indexOrder_lt dflt seeded shuffle now qs.length
  generalize indexOrder dflt seeded shuffle now qs.length = order at hlen hlt
  have hklen : k < order.length := by omega
  refine ⟨fun stk hstk => ?_, fun hq => ?_⟩
  · have htake : (order.take k).length = k := by simp; omega
    obtain ⟨hp, happ⟩ := quizLoop_append qs env (order.take k) initial stk hstk (fun i hi => by
      rw [htake] at hi
      simpa [initial] using hread i hi)
    rw [htake] at hp
    have hp0 : stk.prompts = k := by simpa [initial] using hp
    obtain ⟨m, hm, hpm, hout, hcase⟩ := quizLoop_ok qs env _ _ _ hstk
    have hmk : m = k := by omega
    subst hmk
    have hsc : scored stk.answers = m ∧ stk.stderr = [] := by
      rcases hcase with ⟨_, h2, h3⟩ | ⟨h0, _, _, h4⟩
      · exact ⟨by simpa [initial, scored] using h2, by simpa [initial] using h3⟩
      · obtain ⟨scan, hscan⟩ := hread (m - 1) (by omega)
        simp only [initial, Nat.zero_add] at h4
        rw [hscan] at h4
        cases h4
    have hsplit : order = order.take m ++ order[m] :: order.drop (m + 1) := by
      rw [List.getElem_cons_drop, List.take_append_drop]
    have hidx : order[m] < qs.length := hlt _ (List.getElem_mem _)
    obtain ⟨q0, tl, hq0⟩ : ∃ q0 tl, qs[order[m]] = q0 :: tl := by
      match hm' : qs[order[m]], hne _ (List.getElem_mem hidx) with
      | q0 :: tl, _ => exact ⟨q0, tl, rfl⟩
    have hrun : quizLoop qs env order initial = .ok
        { stk with stdout := stk.stdout ++ [q0 ++ " = "], prompts := stk.prompts + 1,
                   stderr := stk.stderr ++ [ErrTimesUp ++ "\n"] } := by
      conv => lhs; rw [hsplit]
      rw [happ, quizLoop_cons, index_lt qs _ hidx]
      simp only []
      rw [hq0, show env stk.prompts = .done by rw [hp0]; exact hdone, body_done]
    refine ⟨_, hrun, rfl, by simp [hp0], ?_, ?_, ?_, ?_⟩
    · show stk.stdout ++ [q0 ++ " = "] = _
      rw [hout, List.take_take, Nat.min_self, List.append_assoc, List.take_succ,
        List.map_append, List.getElem?_eq_getElem hklen]
      simp [promptText, List.getD_eq_getElem?_getD, List.getElem?_eq_getElem hidx, hq0]
    · simp [hsc.2]; rfl
    · exact hsc.1
    · have := hsc.1
      simp only [scored] at this
      simp only [missed]
      omega
  · exact quizLoop_total qs env hq _ _ (fun n hn => hlt n (List.mem_of_mem_take hn))

/-- C3, at two questions, the first answered `4` and the second timed out:
`k = 1`. -/
theorem timeout_stops_loop_witness :
    (∀ q ∈ [["2+2", "4"], ["3+3", "6"]], q ≠ []) ∧ 1 < [["2+2", "4"], ["3+3", "6"]].length ∧
    (∀ i < 1, ∃ scan, (fun k => if k = 0 then Race.read ⟨"4", none⟩ else Race.done) i
      = .read scan) ∧
    ∃ st, quizLoop [["2+2", "4"], ["3+3", "6"]]
        (fun k => if k = 0 then Race.read ⟨"4", none⟩ else Race.done)
        (indexOrder ⟨fun k => k⟩ (fun _ => ⟨fun k => k⟩) false 0 2) initial = .ok st ∧
      st.answers = ⟨["4"], []⟩ ∧ st.prompts = 2 ∧ st.stderr = ["Times up!\n"] ∧
      missed [["2+2", "4"], ["3+3", "6"]] st.answers = 1 := by
  have hne : ∀ q ∈ [["2+2", "4"], ["3+3", "6"]], q ≠ [] := by decide
  have hread : ∀ i < 1, ∃ scan,
      (fun k => if k = 0 then Race.read ⟨"4", none⟩ else Race.done) i = .read scan :=
    fun i hi => ⟨⟨"4", none⟩, by simp [Nat.lt_one_iff.mp hi]⟩
  refine ⟨hne, by decide, hread, ?_⟩
  obtain ⟨st, h1, h2, h3, _, h5, _, h7⟩ :=
    (timeout_stops_loop ⟨fun k => k⟩ (fun _ => ⟨fun k => k⟩) false 0
      (fun k => if k = 0 then Race.read ⟨"4", none⟩ else Race.done)
      [["2+2", "4"], ["3+3", "6"]] 1 hne (by decide) hread rfl).1
      { answers := ⟨["4"], []⟩, stdout := initial.stdout ++ ["2+2 = "], stderr := [],
        prompts := 1 } rfl
  exact ⟨st, h1, h2, h3, h5, h7⟩

/-! ## The order index -/

/-- C4. For every `n`, either value of the shuffle flag and every state of
the random source, the order index of `main` for `n` questions has length
`n`, is a permutation of `[0, n)` (each of `0..n-1` occurs exactly once, and
sorting it gives `[0, 1, ..., n-1]`), and indexes every question set of `n`
records within bounds; for `n = 0` it is empty and the loop returns the state
it was given, having run no iteration. -/
theorem indexOrder_permutation (dflt : Rand) (seeded : Int → Rand) (shuffle : Bool)
    (now : Int) (n : Nat) :
    (indexOrder dflt seeded shuffle now n).length = n ∧
    (indexOrder dflt seeded shuffle now n).Perm (List.range n) ∧
    (indexOrder dflt seeded shuffle now n).insertionSort (· ≤ ·) = List.range n ∧
    (∀ i, i < n → (indexOrder dflt seeded shuffle now n).count i = 1) ∧
    (∀ qs : List (List String), qs.length = n →
      ∀ x ∈ indexOrder dflt seeded shuffle now n, ∃ q, index qs x = .ok q) ∧
    indexOrder dflt seeded shuffle now 0 = [] ∧
    (∀ (qs : List (List String)) (env : Nat → Race) (st : State),
      quizLoop qs env (indexOrder dflt seeded shuffle now 0) st = .ok st) := by
  have hperm := indexOrder_perm dflt seeded shuffle now n
  have hnil : indexOrder dflt seeded shuffle now 0 = [] :=
    List.length_eq_zero.mp (indexOrder_length dflt seeded shuffle now 0)
  refine ⟨indexOrder_length _ _ _ _ _, hperm, ?_, ?_, ?_, hnil, ?_⟩
  · exact List.eq_of_perm_of_sorted ((List.perm_insertionSort _ _).trans hperm)
      (List.sorted_insertionSort _ _) (List.sorted_le_range n)
  · intro i hi
    have hnodup : (indexOrder dflt seeded shuffle now n).Nodup :=
      hperm.nodup_iff.mpr (List.nodup_range n)
    exact List.count_eq_one_of_mem hnodup (hperm.mem_iff.mpr (List.mem_range.mpr hi))
  · intro qs hqs x hx
    have hlt : x < qs.length := by
      rw [hqs]; exact indexOrder_lt _ _ _ _ _ _ hx
    exact ⟨_, index_lt qs x hlt⟩
  · intro qs env st
    rw [hnil]
    rfl

/-- C5 fails on the code. Without `-shuffle` the order index is the file
order exactly when every call `Intn(i + 1)` inside `rand.Perm` returns `i`,
which a random source does not do: under the default source five questions
are presented in the order `[0, 4, 2, 3, 1]`, not `[0, 1, 2, 3, 4]` as the
comment at main.go:54 expects. Up to four questions the order is the file
order. -/
theorem indexOrder_default_not_natural :
    (∀ (dflt : Rand) (seeded : Int → Rand) (now : Int) (n : Nat),
      indexOrder dflt seeded false now n = List.range n ↔ ∀ i < n, Intn dflt i (i + 1) = i) ∧
    indexOrder defaultSeed (fun _ => defaultSeed) false 0 5 = [0, 4, 2, 3, 1] ∧
    indexOrder defaultSeed (fun _ => defaultSeed) false 0 5 ≠ List.range 5 ∧
    indexOrder defaultSeed (fun _ => defaultSeed) false 0 4 = List.range 4 := by
  refine ⟨fun dflt _ _ n => Perm_eq_range_iff dflt n, ?_⟩
  decide

/-- C6 fails on the code as stated. The state in which a process finds the
global source belongs to the Go runtime (seed 1 in releases before 1.20, a
fresh random seed in later ones), and two runs without `-shuffle` against the
same two-question file that find it in different states present the questions
in different orders. -/
theorem indexOrder_unshuffled_differs :
    indexOrder ⟨fun k => k⟩ (fun _ => ⟨fun k => k⟩) false 0
        [["2+2", "4"], ["3+3", "6"]].length = [0, 1] ∧
    indexOrder ⟨fun _ => 0⟩ (fun _ => ⟨fun k => k⟩) false 0
        [["2+2", "4"], ["3+3", "6"]].length = [1, 0] ∧
    indexOrder ⟨fun k => k⟩ (fun _ => ⟨fun k => k⟩) false 0 [["2+2", "4"], ["3+3", "6"]].length
      ≠ indexOrder ⟨fun _ => 0⟩ (fun _ => ⟨fun k => k⟩) false 0
          [["2+2", "4"], ["3+3", "6"]].length := by
  decide

/-- C6 as amended. Without `-shuffle` the order index is `rand.Perm(n)` drawn
from the source in the state the process found it, as the first use of the
source: it depends on the number of questions and on that state alone, not on
the clock, on what reseeding would have done or on the questions. Two runs on
question sets of equal length get the same order index exactly when their
sources return the same values for the calls `Intn(1)`, ..., `Intn(n)`, and so
whenever both processes find the source in the same state. -/
theorem indexOrder_unshuffled_iff_draws (dflt₁ dflt₂ : Rand) (seeded₁ seeded₂ : Int → Rand)
    (now₁ now₂ : Int) (qs₁ qs₂ : List (List String)) (hlen : qs₁.length = qs₂.length) :
    (indexOrder dflt₁ seeded₁ false now₁ qs₁.length
        = indexOrder dflt₂ seeded₂ false now₂ qs₂.length ↔
      ∀ i < qs₁.length, Intn dflt₁ i (i + 1) = Intn dflt₂ i (i + 1)) ∧
    indexOrder dflt₁ seeded₁ false now₁ qs₁.length
      = indexOrder dflt₁ seeded₂ false now₂ qs₂.length ∧
    indexOrder dflt₁ seeded₁ false now₁ qs₁.length = Perm dflt₁ qs₁.length := by
  rw [← hlen]
  exact ⟨Perm_eq_iff dflt₁ dflt₂ qs₁.length, rfl, rfl⟩

/-- C6 as amended, at two different two-question files read at different
times by processes whose sources are in different states but return the same
values for `Intn(1)` and `Intn(2)`. -/
theorem indexOrder_unshuffled_iff_draws_witness :
    [["2+2", "4"], ["3+3", "6"]].length = [["1+1", "2"], ["5+5", "10"]].length ∧
    indexOrder ⟨fun k => 7 * k + 3⟩ (fun _ => ⟨fun k => k⟩) false 17
        [["2+2", "4"], ["3+3", "6"]].length
      = indexOrder ⟨fun k => 107 * k + 103⟩ (fun t => ⟨fun k => k + t.toNat⟩) false 42
          [["1+1", "2"], ["5+5", "10"]].length :=
  ⟨rfl, (indexOrder_unshuffled_iff_draws ⟨fun k => 7 * k + 3⟩ ⟨fun k => 107 * k + 103⟩
    (fun _ => ⟨fun k => k⟩) (fun t => ⟨fun k => k + t.toNat⟩) 17 42
    [["2+2", "4"], ["3+3", "6"]] [["1+1", "2"], ["5+5", "10"]] rfl).1.mpr (by decide)⟩

/-! ## `prompt` and `strings.TrimSpace` -/

theorem rdropWhile_append_rtakeWhile {α : Type} (p : α → Bool) (l : List α) :
    l.rdropWhile p ++ l.rtakeWhile p = l := by
  rw [List.rdropWhile, List.rtakeWhile, ← List.reverse_append, List.takeWhile_append_dropWhile,
    List.reverse_reverse]

/-- What `strings.TrimSpace` returns: the argument without a leading and a
trailing run of white space, and with no white space at either end. -/
theorem TrimSpace_spec (s : String) :
    (∃ pre suf, s.data = pre ++ (TrimSpace s).data ++ suf ∧
      (∀ c ∈ pre, isSpace c = true) ∧ (∀ c ∈ suf, isSpace c = true)) ∧
    (∀ c, (TrimSpace s).data.head? = some c → isSpace c = false) ∧
    (∀ c, (TrimSpace s).data.getLast? = some c → isSpace c = false) := by
  refine ⟨⟨s.data.takeWhile isSpace, (s.data.dropWhile isSpace).rtakeWhile isSpace, ?_,
    fun c hc => List.mem_takeWhile_imp hc, fun c hc => List.mem_rtakeWhile_imp hc⟩, ?_, ?_⟩
  · simp only [TrimSpace]
    rw [List.append_assoc, rdropWhile_append_rtakeWhile, List.takeWhile_append_dropWhile]
  · intro c hc
    simp only [TrimSpace] at hc
    obtain ⟨t, ht⟩ : (s.data.dropWhile isSpace).rdropWhile isSpace <+: s.data.dropWhile isSpace :=
      List.rdropWhile_prefix _ _
    have hhead : (s.data.dropWhile isSpace).head? = some c := by
      rw [← ht, List.head?_append, hc]; rfl
    have := List.head?_dropWhile_not isSpace s.data
    rw [hhead] at this
    exact this
  · intro c hc
    simp only [TrimSpace] at hc
    have hne : (s.data.dropWhile isSpace).rdropWhile isSpace ≠ [] := by
      intro h; rw [h] at hc; cases hc
    have := List.rdropWhile_last_not isSpace (s.data.dropWhile isSpace) hne
    rw [List.getLast?_eq_getLast _ hne] at hc
    injection hc with hc
    rw [hc] at this
    simpa using this

/-- C10. For every question with a prompt field and every outcome of the
race, `prompt` returns: after a read that came first, the scanned text with
its surrounding white space trimmed (no white space at either end of the
answer) and a nil error; after a deadline that came first, the empty string
and `ErrTimesUp`, whose message is `Times up!`; and a non-empty answer never
comes with an error. -/
theorem prompt_result (race : Race) (q0 : String) (rest : List String) :
    ∃ p, prompt race (q0 :: rest) = .ok p ∧ p.stdout = q0 ++ " = " ∧
      (∀ scan, race = .read scan →
        p.ans = TrimSpace scan.s ∧ p.err = none ∧
        (∃ pre suf, scan.s.data = pre ++ p.ans.data ++ suf ∧
          (∀ c ∈ pre, isSpace c = true) ∧ (∀ c ∈ suf, isSpace c = true)) ∧
        (∀ c, p.ans.data.head? = some c → isSpace c = false) ∧
        (∀ c, p.ans.data.getLast? = some c → isSpace c = false)) ∧
      (race = .done → p.ans = "" ∧ p.err = some ErrTimesUp ∧ ErrTimesUp = "Times up!") ∧
      (p.err ≠ none → p.ans = "") := by
  refine ⟨_, prompt_cons race q0 rest, ?_⟩
  cases race with
  | done =>
    refine ⟨rfl, ?_, fun _ => ⟨rfl, rfl, rfl⟩, fun _ => rfl⟩
    intro scan h; cases h
  | read scan =>
    refine ⟨rfl, ?_, ?_, fun h => absurd rfl h⟩
    · intro scan' h
      injection h with h
      subst h
      exact ⟨rfl, rfl, TrimSpace_spec scan.s⟩
    · intro h; cases h

/-! ## Read errors -/

/-- C7 fails on the code. At end of input `Scanf` fails and leaves `s`
empty; `prompt` returns the empty answer with a nil error, the loop goes on
to prompt the second question, nothing is printed to standard error, and both
questions are reported incorrect, none missed. -/
theorem read_error_does_not_stop :
    prompt (.read ⟨"", some "EOF"⟩) ["2+2", "4"] = .ok ⟨"2+2 = ", "", none⟩ ∧
    quiz ⟨fun k => k⟩ (fun _ => ⟨fun k => k⟩) false 0 (fun _ => .read ⟨"", some "EOF"⟩)
        [["2+2", "4"], ["3+3", "6"]]
      = .ok { stdout := ["Type your answer followed by the return key.\n", "\n", "2+2 = ",
                "3+3 = ", "Total: 2 (0 correct, 2 incorrect, 0 missed)\n"],
              stderr := [], exitCode := 0 } := by
  exact ⟨rfl, rfl⟩

/-- C7 as amended. When the read fails with error `e`, having left `s` in
the scanned variable, `prompt` discards `e`: it returns `TrimSpace s` with a
nil error. The iteration then does not break the loop and prints nothing to
standard error; it scores the question like any answered one, appending the
answer to the correct list when it equals the expected answer and to the
incorrect list otherwise. A lost race against the deadline is the only case
in which `prompt` reports an error. -/
theorem read_error_is_scored (s e q0 q1 : String) (rest : List String) (st : State) :
    prompt (.read ⟨s, some e⟩) (q0 :: q1 :: rest)
      = .ok { stdout := q0 ++ " = ", ans := TrimSpace s, err := none } ∧
    (∃ st', body (.read ⟨s, some e⟩) (q0 :: q1 :: rest) st = .ok (.next, st') ∧
      st'.stderr = st.stderr ∧
      ((TrimSpace s = q1 ∧ st'.answers.CORRECT = st.answers.CORRECT ++ [TrimSpace s] ∧
          st'.answers.INCORRECT = st.answers.INCORRECT) ∨
       (TrimSpace s ≠ q1 ∧ st'.answers.INCORRECT = st.answers.INCORRECT ++ [TrimSpace s] ∧
          st'.answers.CORRECT = st.answers.CORRECT))) ∧
    (∀ race q p, prompt race q = .ok p → p.err ≠ none → race = .done) := by
  refine ⟨prompt_cons _ _ _, ⟨_, body_read _ _ _ _ _, rfl, ?_⟩, ?_⟩
  · by_cases h : TrimSpace s = q1
    · exact Or.inl ⟨h, by simp [h]⟩
    · exact Or.inr ⟨h, by simp [h]⟩
  · intro race q p hp herr
    cases q with
    | nil => rw [prompt_nil] at hp; cases hp
    | cons q0 rest =>
      rw [prompt_cons] at hp
      injection hp with hp
      subst hp
      cases race with
      | done => rfl
      | read scan => exact absurd rfl herr

/-! ## Loading the questions -/

theorem readAll_pos (n : Nat) (hn : 0 < n) :
    ∀ (rs : List (Except String (List String))) (qs : List (List String)),
      readAll n rs = .ok qs ↔ rs = qs.map .ok ∧ ∀ q ∈ qs, q.length = n
  | [], qs => by
    cases qs <;> simp [readAll]
  | .error e :: rest, qs => by
    cases qs <;> simp [readAll]
  | .ok r :: rest, qs => by
    rw [readAll, if_pos hn]
    by_cases hr : r.length = n
    · rw [if_neg (by simpa using hr)]
      cases h : readAll n rest with
      | error e =>
        have := readAll_pos n hn rest
        simp only [Except.map]
        constructor
        · intro h'; cases h'
        · rintro ⟨h1, h2⟩
          cases qs with
          | nil => simp at h1
          | cons q qs' =>
            simp only [List.map_cons, List.cons.injEq] at h1
            have := (this qs').mpr ⟨h1.2, fun x hx => h2 x (List.mem_cons_of_mem _ hx)⟩
            rw [h] at this; cases this
      | ok qs' =>
        have ih := (readAll_pos n hn rest qs').mp h
        simp only [Except.map]
        constructor
        · intro h'
          injection h' with h'
          subst h'
          refine ⟨by simp [ih.1], ?_⟩
          intro q hq
          rcases List.mem_cons.mp hq with rfl | hq
          · exact hr
          · exact ih.2 q hq
        · rintro ⟨h1, _⟩
          cases qs with
          | nil => simp at h1
          | cons q qs'' =>
            simp only [List.map_cons, List.cons.injEq, Except.ok.injEq] at h1
            obtain ⟨rfl, h1⟩ := h1
            have hinj : qs' = qs'' := by
              have : qs'.map (Except.ok : List String → Except String (List String))
                  = qs''.map Except.ok := by rw [← ih.1, h1]
              exact List.map_injective_iff.mpr (fun a b hab => by injection hab) this
            rw [hinj]
    · rw [if_pos (by simpa using hr)]
      constructor
      · intro h'; cases h'
      · rintro ⟨h1, h2⟩
        cases qs with
        | nil => simp at h1
        | cons q qs' =>
          simp only [List.map_cons, List.cons.injEq, Except.ok.injEq] at h1
          exact absurd (h1.1 ▸ h2 q (List.mem_cons_self _ _)) hr

/-- C8 fails on the code. A file of one-field records loads without error,
and `q[1]` is then out of bounds; a file of three-field records loads
without error too. -/
theorem questions_accepts_other_field_counts :
    questions (.rows [.ok ["2+2"], .ok ["3+3"]]) = .ok [["2+2"], ["3+3"]] ∧
    index ["2+2"] 1 = .error (.indexOutOfRange 1 1) ∧
    questions (.rows [.ok ["2+2", "4", "four"]]) = .ok [["2+2", "4", "four"]] := by
  exact ⟨rfl, rfl, rfl⟩

/-- C8 as amended. For a file whose rows have at least one field each, as
the rows of `encoding/csv` do, `questions` returns a question set exactly
when every row is lexed and has as many fields as the first one; the set is
then the rows in file order. That number need not be two; a file with a
record whose field count differs from the first record's makes `questions`
fail with an error. -/
theorem questions_field_count (rs : List (Except String (List String)))
    (hne : ∀ r, Except.ok r ∈ rs → r ≠ []) :
    (∀ qs, questions (.rows rs) = .ok qs ↔
      rs = qs.map .ok ∧ ∀ q ∈ qs, q.length = (qs.headD []).length) ∧
    (∀ recs : List (List String), rs = recs.map .ok →
      (∃ q ∈ recs, q.length ≠ (recs.headD []).length) →
      ∃ err, questions (.rows rs) = .error err) := by
  have hiff : ∀ qs, questions (.rows rs) = .ok qs ↔
      rs = qs.map .ok ∧ ∀ q ∈ qs, q.length = (qs.headD []).length := by
    intro qs
    simp only [questions]
    cases rs with
    | nil => cases qs <;> simp [readAll]
    | cons r rest =>
      cases r with
      | error e => cases qs <;> simp [readAll]
      | ok r =>
        have hpos : 0 < r.length := List.length_pos.mpr (hne r (List.mem_cons_self _ _))
        rw [readAll, if_neg (Nat.lt_irrefl 0)]
        cases qs with
        | nil =>
          cases readAll r.length rest <;> simp [Except.map]
        | cons q qs' =>
          have ih := readAll_pos r.length hpos rest
          simp only [List.map_cons, List.cons.injEq, Except.ok.injEq, List.headD_cons,
            List.mem_cons, forall_eq_or_imp, true_and]
          cases h : readAll r.length rest with
          | error e =>
            simp only [Except.map]
            constructor
            · intro h'; cases h'
            · rintro ⟨⟨rfl, h1⟩, h2⟩
              have := (ih qs').mpr ⟨h1, h2⟩
              rw [h] at this; cases this
          | ok qs'' =>
            simp only [Except.map, Except.ok.injEq, List.cons.injEq]
            constructor
            · rintro ⟨rfl, rfl⟩
              exact ⟨⟨rfl, ((ih qs'').mp h).1⟩, ((ih qs'').mp h).2⟩
            · rintro ⟨⟨rfl, h1⟩, h2⟩
              have := (ih qs').mpr ⟨h1, h2⟩
              rw [h] at this
              injection this with this
              exact ⟨rfl, this⟩
  refine ⟨hiff, ?_⟩
  rintro recs hrs ⟨q, hq, hlen⟩
  cases h : questions (.rows rs) with
  | error err => exact ⟨err, rfl⟩
  | ok qs =>
    obtain ⟨h1, h2⟩ := (hiff qs).mp h
    have : recs = qs :=
      List.map_injective_iff.mpr (fun a b hab => by injection hab) (hrs.symm.trans h1)
    subst this
    exact absurd (h2 q hq) hlen

/-- C8 as amended, at a file of two two-field rows. -/
theorem questions_field_count_witness :
    (∀ r, Except.ok r ∈ [(.ok ["2+2", "4"] : Except String (List String)), .ok ["3+3", "6"]]
      → r ≠ []) ∧
    questions (.rows [.ok ["2+2", "4"], .ok ["3+3", "6"]]) = .ok [["2+2", "4"], ["3+3", "6"]] ∧
    ∃ err, questions (.rows [.ok ["2+2", "4"], .ok ["3+3"]]) = .error err := by
  have hne : ∀ r, Except.ok r ∈ [(.ok ["2+2", "4"] : Except String (List String)),
      .ok ["3+3", "6"]] → r ≠ [] := by
    intro r hr
    simp only [List.mem_cons, Except.ok.injEq, List.mem_singleton, List.not_mem_nil,
      or_false] at hr
    rcases hr with rfl | rfl <;> simp
  have hne2 : ∀ r, Except.ok r ∈ [(.ok ["2+2", "4"] : Except String (List String)),
      .ok ["3+3"]] → r ≠ [] := by
    intro r hr
    simp only [List.mem_cons, Except.ok.injEq, List.mem_singleton, List.not_mem_nil,
      or_false] at hr
    rcases hr with rfl | rfl <;> simp
  exact ⟨hne,
    ((questions_field_count _ hne).1 [["2+2", "4"], ["3+3", "6"]]).mpr ⟨rfl, by decide⟩,
    (questions_field_count _ hne2).2 [["2+2", "4"], ["3+3"]] rfl ⟨["3+3"], by decide⟩⟩

/-! ## The report -/

theorem fmtD_natCast (n : Nat) : fmtD (n : Int) = toString n := rfl

/-- C9. For a question set that `questions` loaded and a loop that stopped,
by exhausting the order or by `break outer`, `main` exits with status 0
having printed the banner, one prompt for each question asked, and then
one line, `Total: <total> (<correct> correct, <incorrect> incorrect,
<missed> missed)` and a newline, in decimal, with `total = len(qs)`,
`correct` and `incorrect` the lengths of the answer lists and
`missed = total - correct - incorrect`. The loop does stop when every record
has an expected answer; for the empty set the line is
`Total: 0 (0 correct, 0 incorrect, 0 missed)`. -/
theorem report_line (file : CsvFile) (dflt : Rand) (seeded : Int → Rand) (shuffle : Bool)
    (now : Int) (env : Nat → Race) (qs : List (List String))
    (hload : questions file = .ok qs) :
    (∀ st, quizLoop qs env (indexOrder dflt seeded shuffle now qs.length) initial = .ok st →
      main file dflt seeded shuffle now env = .ok
        { stdout := st.stdout ++
            ["Total: " ++ toString qs.length ++ " (" ++
              toString st.answers.CORRECT.length ++ " correct, " ++
              toString st.answers.INCORRECT.length ++ " incorrect, " ++
              toString (qs.length - st.answers.CORRECT.length - st.answers.INCORRECT.length)
              ++ " missed)\n"],
          stderr := st.stderr, exitCode := 0 } ∧
      st.stdout = ["Type your answer followed by the return key.\n", "\n"] ++
        ((indexOrder dflt seeded shuffle now qs.length).take st.prompts).map (promptText qs)) ∧
    ((∀ q ∈ qs, 2 ≤ q.length) →
      ∃ st, quizLoop qs env (indexOrder dflt seeded shuffle now qs.length) initial = .ok st) ∧
    (qs = [] → main file dflt seeded shuffle now env = .ok
        { stdout := ["Type your answer followed by the return key.\n", "\n",
            "Total: 0 (0 correct, 0 incorrect, 0 missed)\n"],
          stderr := [], exitCode := 0 }) := by
  have hmain : main file dflt seeded shuffle now env = quiz dflt seeded shuffle now env qs := by
    simp only [main, hload]
  refine ⟨fun st h => ?_, (tally_bound dflt seeded shuffle now env qs).2, fun hnil => ?_⟩
  · obtain ⟨hs, _⟩ := tally_bound dflt seeded shuffle now env qs
    have hle := hs st h
    obtain ⟨m, _, hpm, hout, _⟩ := quizLoop_ok qs env _ _ _ h
    have hm : st.prompts = m := by simpa [initial] using hpm
    refine ⟨?_, by rw [hout, hm]; rfl⟩
    have hmissed : missed qs st.answers
        = ((qs.length - st.answers.CORRECT.length - st.answers.INCORRECT.length : Nat) : Int) := by
      simp only [missed, scored] at hle ⊢
      omega
    rw [hmain]
    simp only [quiz, h, bind, Except.bind, pure, Except.pure, report, hmissed, fmtD_natCast]
  · subst hnil
    rw [hmain]
    have h0 : indexOrder dflt seeded shuffle now ([] : List (List String)).length = [] :=
      List.length_eq_zero.mp (indexOrder_length dflt seeded shuffle now 0)
    simp only [quiz, h0, quizLoop, bind, Except.bind, pure, Except.pure]
    rfl

/-- C9, at a two-question file answered `5` and `6`. -/
theorem report_line_witness :
    questions (.rows [.ok ["2+2", "4"], .ok ["3+3", "6"]]) = .ok [["2+2", "4"], ["3+3", "6"]] ∧
    main (.rows [.ok ["2+2", "4"], .ok ["3+3", "6"]]) ⟨fun k => k⟩ (fun _ => ⟨fun k => k⟩)
        false 0 (fun k => if k = 0 then .read ⟨"5", none⟩ else .read ⟨"6", none⟩)
      = .ok { stdout := ["Type your answer followed by the return key.\n", "\n", "2+2 = ",
                "3+3 = ", "Total: 2 (1 correct, 1 incorrect, 0 missed)\n"],
              stderr := [], exitCode := 0 } :=
  ⟨rfl, ((report_line (.rows [.ok ["2+2", "4"], .ok ["3+3", "6"]]) ⟨fun k => k⟩
    (fun _ => ⟨fun k => k⟩) false 0
    (fun k => if k = 0 then .read ⟨"5", none⟩ else .read ⟨"6", none⟩)
    [["2+2", "4"], ["3+3", "6"]] rfl).1
    { answers := ⟨["6"], ["5"]⟩,
      stdout := ["Type your answer followed by the return key.\n", "\n", "2+2 = ", "3+3 = "],
      stderr := [], prompts := 2 } rfl).1⟩

end GoQuiz
